import Mathlib

/-!
Verification development for the `torncoder` repository.

This file gives a shallow embedding of the storage delegates
(`MemoryFileDelegate`, `SynchronousFileDelegate`, `ThreadedFileDelegate`),
the `FileInfo` metadata snapshot, the `SimpleFileManager` (index +
`vacuum`), the conditional-request predicate `check_if_304`, the upload
(`PUT`) path, and a spec-modelled streaming `MultipartFormDataParser`
(whose source module `file_util/_parser.py` is not present in the
repository snapshot, only its tests are).

Bytes are modelled as `Nat`, byte strings as `List Nat`, Python `dict`
and `OrderedDict` as insertion-ordered association lists, fallible
Python code as `Except PyErr`.
-/

namespace Torncoder

/-- Kinds of Python exceptions that the embedded code can raise. -/
inductive PyErr where
  | cacheError
  | valueError
  | typeError
  | attributeError
  | fileNotFoundError
deriving DecidableEq, Repr

/-! ## Generic list helpers (byte-string scanning) -/

/-- Boolean "u is a prefix of v" (mirrors Python `startswith` reasoning). -/
def isPre {α : Type} [DecidableEq α] : List α → List α → Bool
  | [], _ => true
  | _ :: _, [] => false
  | a :: as, b :: bs => decide (a = b) && isPre as bs

/-- Boolean "u is a suffix of v". -/
def isSuf {α : Type} [DecidableEq α] (u v : List α) : Bool :=
  isPre u.reverse v.reverse

/-- Split a byte string at the first occurrence of the pattern `m`:
returns the bytes strictly before the occurrence and the bytes strictly
after it, or `none` when `m` does not occur. -/
def splitAtMarker {α : Type} [DecidableEq α] (m : List α) : List α → Option (List α × List α)
  | [] => none
  | a :: rest =>
    if isPre m (a :: rest) then some ([], (a :: rest).drop m.length)
    else
      match splitAtMarker m rest with
      | some (b, after) => some (a :: b, after)
      | none => none

/-- Candidate test used by the body-streaming hold-back logic: a buffer
suffix is held back when it could still grow into the boundary marker,
optionally preceded by the CRLF that would be stripped from the body. -/
def cand {α : Type} [DecidableEq α] (pre m s : List α) : Bool :=
  isPre s m || isPre s (pre ++ m)

/-- Split a buffer into the part that can safely be flushed to the sink
and the longest trailing part that might still be (the start of) a
boundary marker. -/
def heldSplit {α : Type} [DecidableEq α] (pre m : List α) : List α → List α × List α
  | [] => ([], [])
  | a :: rest =>
    if cand pre m (a :: rest) then ([], a :: rest)
    else
      let fh := heldSplit pre m rest
      (a :: fh.1, fh.2)

/-- Python's line iteration over a byte stream: split after every LF. -/
def linesOf : List Nat → List (List Nat)
  | [] => []
  | c :: rest =>
    if c = 10 then [10] :: linesOf rest
    else
      match linesOf rest with
      | [] => [[c]]
      | l :: ls => (c :: l) :: ls

/-- Chunked reads of a fixed positive buffer size (`file.read(n)` loop). -/
def chunksOf (n : Nat) : List Nat → List (List Nat)
  | [] => []
  | c :: rest => (c :: rest.take (n - 1)) :: chunksOf n (rest.drop (n - 1))
termination_by l => l.length
decreasing_by
  simp only [List.length_cons, List.length_drop]
  omega

/-- Python slicing `data[start:end]` for non-negative indices. -/
def pySlice (data : List Nat) (start stop : Nat) : List Nat :=
  (data.take stop).drop start

/-! ## Insertion-ordered association lists (Python `dict` / `OrderedDict`) -/

/-- Lookup in an association list (first match), i.e. `d.get(k)`. -/
def alistGet {β : Type} : List (String × β) → String → Option β
  | [], _ => none
  | (k, v) :: rest, key => if key = k then some v else alistGet rest key

/-- Insertion that keeps the position of an existing key and appends new
keys at the end, mirroring the insertion-order semantics of a Python
`dict`. -/
def alistSet {β : Type} : List (String × β) → String → β → List (String × β)
  | [], key, v => [(key, v)]
  | (k, w) :: rest, key, v =>
    if key = k then (k, v) :: rest else (k, w) :: alistSet rest key v

/-- Removal, i.e. `d.pop(k, None)` restricted to the mapping part. -/
def alistPop {β : Type} : List (String × β) → String → List (String × β)
  | [], _ => []
  | (k, w) :: rest, key => if key = k then rest else (k, w) :: alistPop rest key

/-- The bytes of an ASCII Lean string, used to write byte-string
constants readably. -/
def strBytes (s : String) : List Nat :=
  s.data.map Char.toNat

/-! ## MemoryFileDelegate (src/torncoder/file_util/_core.py, lines 261-292) -/

/-- State of a `MemoryFileDelegate`: `_stream_mapping` holds the
`io.BytesIO` contents of in-flight writes, `_data_mapping` the committed
byte strings. -/
structure MemState where
  streams : List (String × List Nat)
  data : List (String × List Nat)
deriving DecidableEq

namespace MemoryFileDelegate

/-- `start_write`: `self._stream_mapping[key] = io.BytesIO()`. -/
def start_write (s : MemState) (key : String) : MemState :=
  { s with streams := alistSet s.streams key [] }

/-- `write`: looks up the stream and appends; when no stream is present
(`if stm:` fails) the call silently does nothing — no error is raised
and the data is dropped. A `BytesIO` object is truthy even when empty,
so presence of the mapping entry is the whole test. -/
def write (s : MemState) (key : String) (d : List Nat) : MemState :=
  match alistGet s.streams key with
  | some buf => { s with streams := alistSet s.streams key (buf ++ d) }
  | none => s

/-- `finish_write`: `pop` the stream; when one was present, commit its
accumulated contents into `_data_mapping`. -/
def finish_write (s : MemState) (key : String) : MemState :=
  match alistGet s.streams key with
  | some buf => { streams := alistPop s.streams key, data := alistSet s.data key buf }
  | none => { s with streams := alistPop s.streams key }

/-- `read_generator`: yields `data[start:]` or `data[start:end]`; when the
key is absent or the committed value is the empty byte string (`if not
data:` — `b''` is falsy) it yields nothing, without error. -/
def read_generator (s : MemState) (key : String) (start stop : Option Nat) :
    List (List Nat) :=
  match alistGet s.data key with
  | none => []
  | some d =>
    if d = [] then []
    else
      let st := start.getD 0
      match stop with
      | none => [d.drop st]
      | some e => [pySlice d st e]

/-- `remove`: `self._data_mapping.pop(key, None)`. -/
def remove (s : MemState) (key : String) : MemState :=
  { s with data := alistPop s.data key }

/-- Fold a sequence of `write` calls for one key (the payload split into
one or more chunks). -/
def writes (s : MemState) (key : String) (chunks : List (List Nat)) : MemState :=
  chunks.foldl (fun st d => write st key d) s

/-- `read_into_bytes` for a whole object: concatenate all generator
chunks with no offsets. -/
def read_all (s : MemState) (key : String) : List Nat :=
  (read_generator s key none none).flatten

end MemoryFileDelegate

/-! ## SynchronousFileDelegate (src/torncoder/file_util/_core.py, lines 295-361) -/

/-- The file-system together with the delegate's two mappings.  `files`
maps a path to the bytes currently in the file (writes are modelled as
immediately visible); `streams` maps a key to its opened write stream
(path and an is-open flag — `finish_write` closes the stream but leaves
it in `_stream_mapping`); `paths` is `_path_mapping`. -/
structure SyncState where
  files : List (String × List Nat)
  streams : List (String × (String × Bool))
  paths : List (String × String)
deriving DecidableEq

/-- `os.path.join(root, key)` for the shapes used here. -/
def joinPath (root key : String) : String :=
  root ++ "/" ++ key

namespace SynchronousFileDelegate

/-- `start_write`: open `os.path.join(root, key)` in `'wb'` mode
(truncating the file to empty) and record the stream and path. -/
def start_write (root : String) (s : SyncState) (key : String) : SyncState :=
  let path := joinPath root key
  { files := alistSet s.files path [],
    streams := alistSet s.streams key (path, true),
    paths := alistSet s.paths key path }

/-- `write`: raise `CacheError` when `_stream_mapping` has no entry;
writing to a stream that `finish_write` already closed raises the
interpreter's `ValueError` ("I/O operation on closed file"), not a
`CacheError`. -/
def write (s : SyncState) (key : String) (d : List Nat) : Except PyErr SyncState :=
  match alistGet s.streams key with
  | none => Except.error PyErr.cacheError
  | some (path, opn) =>
    if opn then
      Except.ok { s with
        files := alistSet s.files path ((alistGet s.files path).getD [] ++ d) }
    else Except.error PyErr.valueError

/-- `finish_write`: raise `CacheError` when no stream entry exists, else
close the stream.  The entry is not popped from `_stream_mapping`. -/
def finish_write (s : SyncState) (key : String) : Except PyErr SyncState :=
  match alistGet s.streams key with
  | none => Except.error PyErr.cacheError
  | some (path, _) =>
    Except.ok { s with streams := alistSet s.streams key (path, false) }

/-- Ranged read loop of `read_generator` (lines 342-351): iterate the
remaining lines; when a line is shorter than `to_read = end - start`,
yield it whole and advance `start`; otherwise yield `line[:to_read]` —
and, exactly as in the source, fall through to the next line without
returning and without advancing `start`. -/
def rangedLoop (stop : Nat) : List (List Nat) → Nat → List (List Nat)
  | [], _ => []
  | line :: rest, start =>
    if stop ≤ start then []
    else if line.length < stop - start then
      line :: rangedLoop stop rest (start + line.length)
    else
      line.take (stop - start) :: rangedLoop stop rest start

/-- `read_generator`: absent path yields nothing; otherwise seek to
`start` and iterate the file line by line (Python file iteration splits
after every `\n`); `end is None` streams every remaining line; `end <=
start` yields nothing; otherwise run the ranged loop. -/
def read_generator (s : SyncState) (key : String) (start stop : Option Nat) :
    List (List Nat) :=
  match alistGet s.paths key with
  | none => []
  | some path =>
    let content := (alistGet s.files path).getD []
    let st := start.getD 0
    let lines := linesOf (content.drop st)
    match stop with
    | none => lines
    | some e =>
      if e ≤ st then []
      else rangedLoop e lines st

/-- `remove`: pop the path mapping and delete the file (missing file
ignored).  `_stream_mapping` is left untouched. -/
def remove (s : SyncState) (key : String) : SyncState :=
  match alistGet s.paths key with
  | none => s
  | some path =>
    { s with paths := alistPop s.paths key, files := alistPop s.files path }

/-- Fold a sequence of `write` calls in the `Except` monad. -/
def writes (s : SyncState) (key : String) (chunks : List (List Nat)) :
    Except PyErr SyncState :=
  chunks.foldlM (fun st d => write st key d) s

/-- Whole-object read: concatenation of the full generator. -/
def read_all (s : SyncState) (key : String) : List Nat :=
  (read_generator s key none none).flatten

end SynchronousFileDelegate

/-! ## ThreadedFileDelegate (src/torncoder/file_util/_threaded.py) -/

/-- State of a `ThreadedFileDelegate`: the file system plus
`_stream_mapping` (key → opened stream path and is-open flag). -/
structure ThreadedState where
  files : List (String × List Nat)
  streams : List (String × (String × Bool))
deriving DecidableEq

namespace ThreadedFileDelegate

/-- `start_write`: open `os.path.join(root_dir, key)` for writing. -/
def start_write (root : String) (s : ThreadedState) (key : String) : ThreadedState :=
  let path := joinPath root key
  { files := alistSet s.files path [],
    streams := alistSet s.streams key (path, true) }

/-- `write`: `CacheError` when no stream entry is present; a stream
closed by `finish_write` (which does not pop the entry) raises the
closed-file `ValueError`. -/
def write (s : ThreadedState) (key : String) (d : List Nat) :
    Except PyErr ThreadedState :=
  match alistGet s.streams key with
  | none => Except.error PyErr.cacheError
  | some (path, opn) =>
    if opn then
      Except.ok { s with
        files := alistSet s.files path ((alistGet s.files path).getD [] ++ d) }
    else Except.error PyErr.valueError

/-- `finish_write`: `CacheError` when no stream entry, else close it. -/
def finish_write (s : ThreadedState) (key : String) : Except PyErr ThreadedState :=
  match alistGet s.streams key with
  | none => Except.error PyErr.cacheError
  | some (path, _) =>
    Except.ok { s with streams := alistSet s.streams key (path, false) }

/-- `read_generator` with no offsets: open `os.path.join(root_dir, key)`
(raising the interpreter's `FileNotFoundError` when absent) and read
chunks of `DEFAULT_BUFF_SIZE = 4096` bytes until EOF. -/
def read_full (root : String) (s : ThreadedState) (key : String) :
    Except PyErr (List (List Nat)) :=
  match alistGet s.files (joinPath root key) with
  | none => Except.error PyErr.fileNotFoundError
  | some content => Except.ok (chunksOf 4096 content)

/-- Fold a sequence of `write` calls in the `Except` monad. -/
def writes (s : ThreadedState) (key : String) (chunks : List (List Nat)) :
    Except PyErr ThreadedState :=
  chunks.foldlM (fun st d => write st key d) s

end ThreadedFileDelegate

/-! ## NativeAioFileDelegate (src/torncoder/file_util/_aiofile.py) -/

/-- State of a `NativeAioFileDelegate`: the file system,
`_stream_mapping` (key → opened stream path and is-open flag) and
`_path_mapping`. -/
structure NativeAioState where
  files : List (String × List Nat)
  streams : List (String × (String × Bool))
  paths : List (String × String)
deriving DecidableEq

namespace NativeAioFileDelegate

/-- `start_write`: open `os.path.join(root_dir, key)` for writing and
record the path and the stream. -/
def start_write (root : String) (s : NativeAioState) (key : String) : NativeAioState :=
  let path := joinPath root key
  { files := alistSet s.files path [],
    streams := alistSet s.streams key (path, true),
    paths := alistSet s.paths key path }

/-- `write` (lines 33-37): `CacheError` when `_stream_mapping` has no
entry; a stream closed by `finish_write` (which does not pop the entry)
raises the closed-file `ValueError`. -/
def write (s : NativeAioState) (key : String) (d : List Nat) :
    Except PyErr NativeAioState :=
  match alistGet s.streams key with
  | none => Except.error PyErr.cacheError
  | some (path, opn) =>
    if opn then
      Except.ok { s with
        files := alistSet s.files path ((alistGet s.files path).getD [] ++ d) }
    else Except.error PyErr.valueError

/-- `finish_write`: `CacheError` when no stream entry, else close it. -/
def finish_write (s : NativeAioState) (key : String) : Except PyErr NativeAioState :=
  match alistGet s.streams key with
  | none => Except.error PyErr.cacheError
  | some (path, _) =>
    Except.ok { s with streams := alistSet s.streams key (path, false) }

end NativeAioFileDelegate

/-! ## FileInfo (src/torncoder/file_util/_core.py, lines 58-137) -/

/-- Fields stored by `FileInfo.__init__`.  Timestamps are integers. -/
structure FileInfoM where
  key : String
  internalKey : String
  createdAt : Int
  lastModifiedStored : Int
  lastAccessed : Int
  contentType : String
  etagStored : Option String
  size : Nat
deriving DecidableEq

/-- `FileInfo.__init__(key, internal_key, last_modified, etag, size,
content_type)`: the `last_modified` argument is ignored
(`self._last_modified = datetime.utcnow()`), the `etag` argument is
ignored (`self._etag = None`), and `self._size = size or 0`.  `now` is
the value of `datetime.utcnow()` during the call. -/
def fileInfoNew (key internalKey : String) (lastModified : Option Int)
    (etag : Option String) (size : Option Nat) (contentType : String)
    (now : Int) : FileInfoM :=
  let _ := lastModified
  let _ := etag
  { key := key
    internalKey := internalKey
    createdAt := now
    lastModifiedStored := now
    lastAccessed := now
    contentType := contentType
    etagStored := none
    size := size.getD 0 }

namespace FileInfoM

/-- The `etag` property: `return self._etag`. -/
def etagProp (f : FileInfoM) : Option String :=
  f.etagStored

/-- The `last_modified` property: its body is only a docstring, so the
getter implicitly returns `None` whatever was stored. -/
def lastModifiedProp (f : FileInfoM) : Option Int :=
  let _ := f
  none

end FileInfoM

/-! ## SimpleFileManager (src/torncoder/file_util/_core.py, lines 145-255) -/

/-- Manager state: the insertion-ordered `_cache_mapping`, the two
optional bounds, and the tracked `_current_size`. -/
structure ManagerState where
  cache : List (String × FileInfoM)
  maxCount : Option Nat
  maxSize : Option Nat
  currentSize : Int
deriving DecidableEq

/-- Python truthiness of an optional integer bound
(`if self._max_count:`): `None` and `0` are falsy. -/
def truthyOpt : Option Nat → Bool
  | none => false
  | some n => decide (n ≠ 0)

namespace SimpleFileManager

/-- `get_file_info`: plain dictionary lookup, `None` when absent. -/
def get_file_info (st : ManagerState) (key : String) : Option FileInfoM :=
  alistGet st.cache key

/-- `set_file_info`: store the new `FileInfo` (keeping the insertion
position of an existing key), add the new size to `_current_size` and
subtract the old entry's size when one existed; return the old entry. -/
def set_file_info (st : ManagerState) (key : String) (info : FileInfoM) :
    ManagerState × Option FileInfoM :=
  let old := alistGet st.cache key
  ({ st with
      cache := alistSet st.cache key info
      currentSize := st.currentSize + (info.size : Int) -
        (match old with
         | some o => (o.size : Int)
         | none => 0) },
   old)

/-- `vacuum` (lines 239-251).  Whenever a loop body runs, it executes
`item = self._cache_mapping.popitem(last=True)` followed by
`item.internal_key`; `popitem` returns a `(key, value)` tuple, which has
no `internal_key` attribute, so the first iteration of either loop
raises `AttributeError`.  (Moreover `popitem(last=True)` pops the
most-recently-inserted entry, not the oldest, and the `max_size` loop
never decreases `self._current_size`, so even with the attribute access
fixed the loop condition would never become false.)  The observable
behaviour is therefore: `AttributeError` exactly when a truthy bound is
exceeded, and an unchanged state otherwise. -/
def vacuum (st : ManagerState) : Except PyErr ManagerState :=
  if truthyOpt st.maxCount ∧ st.cache.length > st.maxCount.getD 0 then
    Except.error PyErr.attributeError
  else if truthyOpt st.maxSize ∧ st.currentSize > (st.maxSize.getD 0 : Int) then
    Except.error PyErr.attributeError
  else Except.ok st

/-- The index entry that the first executed `popitem(last=True)` inside
`vacuum` removes (before the `AttributeError` fires), when any loop body
runs at all: the most-recently-inserted entry. -/
def vacuumEvictTarget (st : ManagerState) : Option String :=
  if truthyOpt st.maxCount ∧ st.cache.length > st.maxCount.getD 0 then
    st.cache.getLast?.map Prod.fst
  else if truthyOpt st.maxSize ∧ st.currentSize > (st.maxSize.getD 0 : Int) then
    st.cache.getLast?.map Prod.fst
  else none

end SimpleFileManager

/-! ## Conditional requests (src/torncoder/handlers.py, lines 18-41) -/

/-- Modelled from the spec: `torncoder/utils.py` is absent from the
snapshot; its `parse_header_date` turns an HTTP date header value into a
timestamp and its tests show `parse_header_date('')` is `None`.  The
textual date format is immaterial here, so timestamps are integers and
parsing is decimal reading, with `none` for unparseable values. -/
def parse_header_date (s : String) : Option Int :=
  match s.data with
  | [] => none
  | c :: cs =>
    if (c :: cs).all (fun ch => ch.isDigit) then
      some (((c :: cs).foldl (fun n ch => n * 10 + (ch.toNat - 48)) 0 : Nat) : Int)
    else none

/-- `headers.get(name, '')`. -/
def headerGet (headers : List (String × String)) (name : String) : String :=
  (alistGet headers name).getD ""

/-- Model of `ETAGS_FROM_IF_NONE_MATCH_REGEX.findall(etag_values)` with
the pattern `\"(?P<etag>.+)\"`: on a single-line header value the greedy
`.+` produces exactly one match spanning from the first `"` to the last
`"`, provided at least one character stands between them; otherwise no
match. -/
def extractEtags (s : List Char) : List (List Char) :=
  match splitAtMarker ['"'] s with
  | none => []
  | some (_, afterFirst) =>
    match splitAtMarker ['"'] afterFirst.reverse with
    | none => []
    | some (_, revBefore) =>
      let content := revBefore.reverse
      if content = [] then [] else [content]

/-- `check_if_304(file_info, headers)`: an `If-None-Match` hit returns
`True` immediately; otherwise — even when the object had an etag and it
merely failed to match — the code falls through to the `Last-Modified`
check and returns `True` when the parsed `If-Modified-Since` is `<=`
`file_info.last_modified`.  A present but unparseable date makes
`modified_dt` `None` and the comparison `None <= datetime` raises
`TypeError`. -/
def check_if_304 (etag : Option String) (lastModified : Option Int)
    (headers : List (String × String)) : Except PyErr Bool :=
  let etagHit : Bool :=
    match etag with
    | none => false
    | some e =>
      let etagValues := headerGet headers "If-None-Match"
      if etagValues = "" then false
      else decide (e.data ∈ extractEtags etagValues.data)
  if etagHit then Except.ok true
  else
    match lastModified with
    | none => Except.ok false
    | some lm =>
      let modifiedSince := headerGet headers "If-Modified-Since"
      if modifiedSince = "" then Except.ok false
      else
        match parse_header_date modifiedSince with
        | none => Except.error PyErr.typeError
        | some d => Except.ok (decide (d ≤ lm))

/-! ## Upload PUT (src/torncoder/cli/file_cache_server.py, lines 149-174) -/

/-- Observable outcome of `FileUploadHandler.put`. -/
structure PutResult where
  status : Nat
  headers : List (String × String)
  manager : ManagerState
  storedInfo : FileInfoM
deriving DecidableEq

/-- Success path of `FileUploadHandler.put`: build the `FileInfo` from
the accumulated hash (`etag`), `datetime.utcnow()` (`last_modified`),
byte count and content type, `finish_write`, swap it into the manager
with `set_file_info`, then `send_status(200, 'Successfully uploaded:
...')`.  The handler sets no `ETag` or `Last-Modified` response header,
and the status is 200, not 201. -/
def fileUploadPut (st : ManagerState) (path internalKey : String)
    (etagHex : String) (size : Nat) (contentType : String) (now : Int) :
    PutResult :=
  let info := fileInfoNew path internalKey (some now) (some etagHex)
    (some size) contentType now
  let r := SimpleFileManager.set_file_info st path info
  { status := 200, headers := [], manager := r.1, storedInfo := info }

/-! ## MultipartFormDataParser (spec-modelled)

The module `torncoder/file_util/_parser.py` is not part of the snapshot;
only its tests are.  The parser below is modelled from §4.5 of the spec:
a streaming state machine over a `boundary` byte string with states
`SEEKING_BOUNDARY → PARSING_HEADERS → STREAMING_BODY → DONE`, consuming
arbitrary chunks via `data_received` and keeping a carry-over buffer so
that trailing bytes that could still be an incomplete prefix of the
boundary marker (or of the CRLF that precedes it and is stripped from
the body) are held back from the sink until disambiguated.  The
delimiter actually searched for is `'--' + boundary` and the closing
delimiter is `'--' + boundary + '--'`, matching the payloads in
`src/tests/test_file_util.py`. -/

/-- CRLF as bytes. -/
def crlfBytes : List Nat := [13, 10]

/-- The boundary marker searched for in the stream: `'--' + boundary`. -/
def markerOf (boundary : List Nat) : List Nat :=
  45 :: 45 :: boundary

/-- One part as observed at the sink: its extracted name, its header
fields, the reassembled body (the concatenation of all
`file_data_received` payloads), and whether `finish_file` ran. -/
structure Part where
  name : List Nat
  headers : List (List Nat × List Nat)
  data : List Nat
  finished : Bool
deriving DecidableEq

/-- Parser states of §4.5; `afterMarker` is the point just after a
boundary marker where `--` (closing) or CRLF (another part's headers)
decides what follows; `headersMode` accumulates parsed header lines. -/
inductive PMode where
  | seeking
  | afterMarker
  | headersMode (acc : List (List Nat × List Nat))
  | bodyMode
  | doneMode
deriving DecidableEq

/-- Machine state without the carry-over buffer. -/
structure PCore where
  mode : PMode
  parts : List Part
deriving DecidableEq

/-- Parse one header line `Field: value` (split at the first colon, left
spaces of the value stripped); a line without a colon keeps everything
in the field name. -/
def parseHeaderLine (line : List Nat) : List Nat × List Nat :=
  match splitAtMarker [58] line with
  | some (field, rest) => (field, rest.dropWhile (fun c => c = 32))
  | none => (line, [])

/-- Find the first header whose field name matches. -/
def findHeader (acc : List (List Nat × List Nat)) (field : List Nat) :
    Option (List Nat) :=
  match acc with
  | [] => none
  | (f, v) :: rest => if f = field then some v else findHeader rest field

/-- Extract the part name from the accumulated headers: the
`Content-Disposition` value's `name=` parameter, quoted or bare. -/
def extractName (acc : List (List Nat × List Nat)) : List Nat :=
  match findHeader acc (strBytes "Content-Disposition") with
  | none => []
  | some v =>
    match splitAtMarker (strBytes "name=") v with
    | none => []
    | some (_, after) =>
      match after with
      | 34 :: rest => rest.takeWhile (fun c => c ≠ 34)
      | _ => after.takeWhile (fun c => c ≠ 59)

/-- A freshly started part (`start_new_file(name, headers)`). -/
def mkPart (acc : List (List Nat × List Nat)) : Part :=
  { name := extractName acc, headers := acc, data := [], finished := false }

/-- `file_data_received`: append bytes to the part most recently started. -/
def appendLast : List Part → List Nat → List Part
  | [], _ => []
  | [p], d => [{ p with data := p.data ++ d }]
  | p :: q :: rest, d => p :: appendLast (q :: rest) d

/-- `finish_file`: mark the part most recently started as finished. -/
def finishLast : List Part → List Part
  | [] => []
  | [p] => [{ p with finished := true }]
  | p :: q :: rest => p :: finishLast (q :: rest)

/-- Strip one trailing CRLF (the one that immediately precedes a
boundary marker) from a body fragment. -/
def stripCRLF (l : List Nat) : List Nat :=
  if isSuf crlfBytes l then l.take (l.length - 2) else l

/-- One deterministic processing step on the buffered state; `none`
means the machine stalls until more data arrives.

* `seeking`: discard everything through the first boundary marker.
* `afterMarker`: two bytes decide — `--` ends the stream, CRLF starts a
  header block, anything else resumes seeking.
* `headersMode`: consume one CRLF-terminated line; the empty line starts
  the part (`start_new_file`).
* `bodyMode`: a complete marker ends the part (stripping the CRLF that
  immediately precedes the marker); otherwise flush every byte that can
  no longer be part of a marker (or of CRLF + marker) to the sink and
  hold the rest back.
* `doneMode`: discard trailing bytes. -/
def step (boundary : List Nat) (c : PCore) (buf : List Nat) :
    Option (PCore × List Nat) :=
  match c.mode with
  | PMode.seeking =>
    match splitAtMarker (markerOf boundary) buf with
    | some (_, after) => some ({ c with mode := PMode.afterMarker }, after)
    | none => none
  | PMode.afterMarker =>
    match buf with
    | a :: b :: rest =>
      if a = 45 ∧ b = 45 then some ({ c with mode := PMode.doneMode }, rest)
      else if a = 13 ∧ b = 10 then
        some ({ c with mode := PMode.headersMode [] }, rest)
      else some ({ c with mode := PMode.seeking }, b :: rest)
    | _ => none
  | PMode.headersMode acc =>
    match splitAtMarker crlfBytes buf with
    | some (line, after) =>
      if line = [] then
        some ({ mode := PMode.bodyMode, parts := c.parts ++ [mkPart acc] }, after)
      else
        some ({ c with mode := PMode.headersMode (acc ++ [parseHeaderLine line]) },
          after)
    | none => none
  | PMode.bodyMode =>
    match splitAtMarker (markerOf boundary) buf with
    | some (body, after) =>
      some ({ mode := PMode.afterMarker,
              parts := finishLast (appendLast c.parts (stripCRLF body)) }, after)
    | none =>
      let fh := heldSplit crlfBytes (markerOf boundary) buf
      if fh.1 = [] then none
      else some ({ c with parts := appendLast c.parts fh.1 }, fh.2)
  | PMode.doneMode =>
    match buf with
    | _ :: rest => some (c, rest)
    | [] => none

/-- Run the machine until it stalls, with explicit fuel. -/
def runF (boundary : List Nat) : Nat → PCore → List Nat → PCore × List Nat
  | 0, c, b => (c, b)
  | Nat.succ fuel, c, b =>
    match step boundary c b with
    | none => (c, b)
    | some (c2, b2) => runF boundary fuel c2 b2

/-- Run the machine to its stall point (the buffer length bounds the
number of steps, because every step consumes at least one byte). -/
def runP (boundary : List Nat) (c : PCore) (b : List Nat) : PCore × List Nat :=
  runF boundary b.length c b

/-- Full parser state: the boundary, the machine state, and the
carry-over buffer. -/
structure MultipartFormDataParser where
  boundary : List Nat
  core : PCore
  buffer : List Nat
deriving DecidableEq

/-- A fresh parser for the given boundary. -/
def mkParser (boundary : List Nat) : MultipartFormDataParser :=
  { boundary := boundary, core := { mode := PMode.seeking, parts := [] }, buffer := [] }

/-- `data_received(chunk)`: append the chunk to the carry-over buffer
and process as far as the data allows. -/
def dataReceived (p : MultipartFormDataParser) (chunk : List Nat) :
    MultipartFormDataParser :=
  let r := runP p.boundary p.core (p.buffer ++ chunk)
  { boundary := p.boundary, core := r.1, buffer := r.2 }

/-- Decidable equality for `Except` results, used to evaluate the
embedded fallible operations on concrete inputs. -/
instance {e a : Type} [DecidableEq e] [DecidableEq a] : DecidableEq (Except e a) := fun x y =>
  match x, y with
  | Except.ok v, Except.ok w =>
    if h : v = w then Decidable.isTrue (by rw [h])
    else Decidable.isFalse (by intro hc; cases hc; exact h rfl)
  | Except.error v, Except.error w =>
    if h : v = w then Decidable.isTrue (by rw [h])
    else Decidable.isFalse (by intro hc; cases hc; exact h rfl)
  | Except.ok _, Except.error _ => Decidable.isFalse (by intro hc; cases hc)
  | Except.error _, Except.ok _ => Decidable.isFalse (by intro hc; cases hc)

/-- A committed file `b"ab\ncd\n"` under key `"k"` of a
`SynchronousFileDelegate` rooted at `"r"` (stream already closed). -/
def syncStateC2 : SyncState :=
  { files := [("r/k", [97, 98, 10, 99, 100, 10])],
    streams := [("k", ("r/k", false))],
    paths := [("k", "r/k")] }

/-- `FileInfo` for a 1024-byte object, as built for the vacuum states. -/
def infoOfSize (key ik : String) (n : Nat) : FileInfoM :=
  fileInfoNew key ik none none (some n) "text/plain" 0

/-- Manager with `max_size = 1024` and no entries, as created by
`SimpleFileManager(delegate, max_size=1024)`. -/
def managerEmpty1024 : ManagerState :=
  { cache := [], maxCount := none, maxSize := some 1024, currentSize := 0 }

/-- The manager after `set_file_info` of two 1024-byte objects
(`a.txt` first, then `b.txt`): tracked size 2048 > 1024. -/
def managerTwoEntries : ManagerState :=
  (SimpleFileManager.set_file_info
    ((SimpleFileManager.set_file_info managerEmpty1024 "a.txt"
      (infoOfSize "a.txt" "ia" 1024)).1) "b.txt"
    (infoOfSize "b.txt" "ib" 1024)).1

/-- An empty manager as created by `SimpleFileManager(delegate)` with
no bounds. -/
def managerEmptyUnbounded : ManagerState :=
  { cache := [], maxCount := none, maxSize := none, currentSize := 0 }

/-- The multipart payload of
`src/tests/test_file_util.py::TestMultipartFormDataParser`. -/
def multipartTestPayload : List Nat :=
  strBytes ("----boundarything\r\nContent-Disposition: form-data; name=\"a.txt\"\r\n\r\na----boundarything\r\nContent-Disposition: form-data; name=\"b.csv\"\r\nContent-Type: text/csv\r\n\r\ncol1,col2\na,b\n--boundarythin,thatwasclose\n----boundarything--\r\n")

/-! ## Theorems -/
theorem isPre_iff {α : Type} [DecidableEq α] :
    ∀ (u v : List α), isPre u v = true ↔ ∃ t, v = u ++ t := by
  intro u
  induction u with
  | nil => intro v; simp [isPre]
  | cons a as ih =>
    intro v
    cases v with
    | nil => simp [isPre]
    | cons b bs =>
      simp only [isPre, Bool.and_eq_true, decide_eq_true_eq, ih bs]
      constructor
      · rintro ⟨rfl, t, rfl⟩; exact ⟨t, rfl⟩
      · rintro ⟨t, h⟩
        cases h
        exact ⟨rfl, t, rfl⟩

theorem isPre_length_le {α : Type} [DecidableEq α] {u v : List α}
    (h : isPre u v = true) : u.length ≤ v.length := by
  obtain ⟨t, rfl⟩ := (isPre_iff u v).1 h
  simp

theorem isPre_append_right {α : Type} [DecidableEq α] {u v : List α}
    (h : isPre u v = true) (w : List α) : isPre u (v ++ w) = true := by
  obtain ⟨t, rfl⟩ := (isPre_iff u v).1 h
  exact (isPre_iff u (u ++ t ++ w)).2 ⟨t ++ w, by simp⟩

theorem isPre_of_append_of_le {α : Type} [DecidableEq α] :
    ∀ (u v w : List α), u.length ≤ v.length →
      isPre u (v ++ w) = isPre u v := by
  intro u
  induction u with
  | nil => intro v w _; simp [isPre]
  | cons a as ih =>
    intro v w hlen
    cases v with
    | nil => simp at hlen
    | cons b bs =>
      simp only [List.cons_append, isPre, List.append_eq]
      rw [ih bs w (by simpa using hlen)]

theorem isPre_of_prefix_append {α : Type} [DecidableEq α] {u x : List α}
    (w : List α) (h : isPre (u ++ x) w = true) : isPre u w = true := by
  obtain ⟨t, rfl⟩ := (isPre_iff (u ++ x) w).1 h
  exact (isPre_iff u (u ++ x ++ t)).2 ⟨x ++ t, by simp⟩

theorem splitAtMarker_eq {α : Type} [DecidableEq α] {m : List α} :
    ∀ {u b after : List α}, splitAtMarker m u = some (b, after) →
      u = b ++ m ++ after := by
  intro u
  induction u with
  | nil => intro b after h; simp [splitAtMarker] at h
  | cons a rest ih =>
    intro b after h
    by_cases hp : isPre m (a :: rest) = true
    · rw [splitAtMarker, if_pos hp] at h
      obtain ⟨t, ht⟩ := (isPre_iff m (a :: rest)).1 hp
      cases h
      simp only [List.nil_append]
      rw [ht]
      simp [List.drop_left']
    · rw [splitAtMarker, if_neg hp] at h
      cases hsr : splitAtMarker m rest with
      | none => rw [hsr] at h; cases h
      | some p =>
        rcases p with ⟨b1, a1⟩
        rw [hsr] at h
        cases h
        have := ih hsr
        simp [this]

theorem splitAtMarker_none_not_head {α : Type} [DecidableEq α]
    {m : List α} {a : α} {rest : List α}
    (h : splitAtMarker m (a :: rest) = none) :
    isPre m (a :: rest) = false ∧ splitAtMarker m rest = none := by
  by_cases hp : isPre m (a :: rest) = true
  · rw [splitAtMarker, if_pos hp] at h; cases h
  · refine ⟨by simpa using hp, ?_⟩
    rw [splitAtMarker, if_neg hp] at h
    cases hsr : splitAtMarker m rest with
    | none => rfl
    | some p => rcases p with ⟨b1, a1⟩; rw [hsr] at h; cases h

theorem splitAtMarker_none_no_infix {α : Type} [DecidableEq α] {m : List α} :
    ∀ {u : List α}, splitAtMarker m u = none → m ≠ [] →
      ∀ x y, u ≠ x ++ m ++ y := by
  intro u
  induction u with
  | nil =>
    intro _ hm x y hcontra
    rcases m with _ | ⟨c, cs⟩
    · exact hm rfl
    · rcases x with _ | ⟨d, ds⟩ <;> simp at hcontra
  | cons a rest ih =>
    intro h hm x y hcontra
    obtain ⟨hhead, hrest⟩ := splitAtMarker_none_not_head h
    cases x with
    | nil =>
      have : isPre m (a :: rest) = true := by
        refine (isPre_iff _ _).2 ⟨y, ?_⟩
        simpa using hcontra
      rw [this] at hhead; cases hhead
    | cons d ds =>
      have : rest = ds ++ m ++ y := by
        simpa using congrArg List.tail hcontra
      exact ih hrest hm ds y this

theorem splitAtMarker_some_append {α : Type} [DecidableEq α] {m : List α} :
    ∀ {u b after : List α} (v : List α), splitAtMarker m u = some (b, after) →
      splitAtMarker m (u ++ v) = some (b, after ++ v) := by
  intro u
  induction u with
  | nil => intro b after v h; simp [splitAtMarker] at h
  | cons a rest ih =>
    intro b after v h
    by_cases hp : isPre m (a :: rest) = true
    · rw [splitAtMarker, if_pos hp] at h
      cases h
      have hp2 : isPre m ((a :: rest) ++ v) = true := isPre_append_right hp v
      rw [List.cons_append, splitAtMarker]
      rw [List.cons_append] at hp2
      rw [if_pos hp2]
      have hlen : m.length ≤ (a :: rest).length := isPre_length_le hp
      congr 1
      have hform : a :: (rest ++ v) = (a :: rest) ++ v := rfl
      rw [hform, List.drop_append_eq_append_drop]
      rw [Nat.sub_eq_zero_of_le hlen, List.drop_zero]
    · rw [splitAtMarker, if_neg hp] at h
      cases hsr : splitAtMarker m rest with
      | none => rw [hsr] at h; cases h
      | some p =>
        rcases p with ⟨b1, a1⟩
        rw [hsr] at h
        cases h
        have hlenrest : m.length ≤ rest.length := by
          have hchar := splitAtMarker_eq hsr
          subst hchar
          simp
          omega
        have hp2 : isPre m (a :: (rest ++ v)) = false := by
          have heq : isPre m ((a :: rest) ++ v) = isPre m (a :: rest) :=
            isPre_of_append_of_le m (a :: rest) v
              (by simpa using Nat.le_succ_of_le hlenrest)
          rw [List.cons_append] at heq
          rw [heq]
          simpa using hp
        rw [List.cons_append, splitAtMarker]
        rw [if_neg (by simp [hp2])]
        rw [ih v hsr]

theorem heldSplit_eq_append {α : Type} [DecidableEq α] (pre m : List α) :
    ∀ u : List α, u = (heldSplit pre m u).1 ++ (heldSplit pre m u).2 := by
  intro u
  induction u with
  | nil => simp [heldSplit]
  | cons a rest ih =>
    by_cases hc : cand pre m (a :: rest) = true
    · simp [heldSplit, hc]
    · simp only [heldSplit, Bool.not_eq_true] at hc ⊢
      rw [if_neg (by simp [hc])]
      simpa using ih

theorem heldSplit_cand {α : Type} [DecidableEq α] (pre m : List α) :
    ∀ u : List α, (heldSplit pre m u).2 = [] ∨ cand pre m (heldSplit pre m u).2 = true := by
  intro u
  induction u with
  | nil => simp [heldSplit]
  | cons a rest ih =>
    by_cases hc : cand pre m (a :: rest) = true
    · right; simp [heldSplit, hc]
    · simp only [heldSplit, Bool.not_eq_true] at hc ⊢
      rw [if_neg (by simp [hc])]
      simpa using ih

theorem heldSplit_max {α : Type} [DecidableEq α] (pre m : List α) :
    ∀ (u s : List α), s <:+ u → cand pre m s = true →
      s.length ≤ (heldSplit pre m u).2.length := by
  intro u
  induction u with
  | nil =>
    intro s hs _
    have : s = [] := List.eq_nil_of_suffix_nil hs
    simp [this, heldSplit]
  | cons a rest ih =>
    intro s hs hcand
    by_cases hc : cand pre m (a :: rest) = true
    · have : (heldSplit pre m (a :: rest)).2 = a :: rest := by simp [heldSplit, hc]
      rw [this]
      exact hs.length_le
    · rcases List.suffix_cons_iff.1 hs with rfl | htail
      · exact absurd hcand hc
      · have : (heldSplit pre m (a :: rest)).2 = (heldSplit pre m rest).2 := by
          rw [heldSplit, if_neg hc]
        rw [this]
        exact ih s htail hcand

theorem cand_of_append {α : Type} [DecidableEq α] {pre m u : List α} (v : List α)
    (h : cand pre m (u ++ v) = true) : cand pre m u = true := by
  rcases Bool.or_eq_true_iff.1 h with h1 | h1
  · exact Bool.or_eq_true_iff.2 (Or.inl (isPre_of_prefix_append _ h1))
  · exact Bool.or_eq_true_iff.2 (Or.inr (isPre_of_prefix_append _ h1))

theorem heldSplit_append {α : Type} [DecidableEq α] (pre m : List α) :
    ∀ (u v : List α),
      heldSplit pre m (u ++ v) =
        ((heldSplit pre m u).1 ++ (heldSplit pre m ((heldSplit pre m u).2 ++ v)).1,
         (heldSplit pre m ((heldSplit pre m u).2 ++ v)).2) := by
  intro u
  induction u with
  | nil => intro v; simp [heldSplit]
  | cons a rest ih =>
    intro v
    by_cases hc : cand pre m (a :: rest) = true
    · simp [heldSplit, hc]
    · have hcv : ¬cand pre m (a :: (rest ++ v)) = true := by
        intro hx
        exact hc (cand_of_append v (show cand pre m ((a :: rest) ++ v) = true from hx))
      have h1 : heldSplit pre m (a :: rest) =
          (a :: (heldSplit pre m rest).1, (heldSplit pre m rest).2) := by
        rw [heldSplit, if_neg hc]
      have h2 : heldSplit pre m (a :: (rest ++ v)) =
          (a :: (heldSplit pre m (rest ++ v)).1, (heldSplit pre m (rest ++ v)).2) := by
        rw [heldSplit, if_neg hcv]
      rw [List.cons_append, h2, h1, ih v]
      simp

theorem isSuf_iff {α : Type} [DecidableEq α] (u v : List α) :
    isSuf u v = true ↔ ∃ t, v = t ++ u := by
  rw [isSuf, isPre_iff]
  constructor
  · rintro ⟨t, ht⟩
    refine ⟨t.reverse, ?_⟩
    have := congrArg List.reverse ht
    simpa using this
  · rintro ⟨t, rfl⟩
    exact ⟨t.reverse, by simp⟩

theorem isSuf_append_of_le {α : Type} [DecidableEq α] (s x y : List α)
    (h : s.length ≤ y.length) : isSuf s (x ++ y) = isSuf s y := by
  rw [isSuf, isSuf, List.reverse_append]
  exact isPre_of_append_of_le s.reverse y.reverse x.reverse (by simpa using h)

theorem join_linesOf : ∀ l : List Nat, (linesOf l).flatten = l := by
  intro l
  induction l with
  | nil => simp [linesOf]
  | cons c rest ih =>
    by_cases hc : c = 10
    · subst hc; simp [linesOf, ih]
    · rw [linesOf, if_neg hc]
      cases hrec : linesOf rest with
      | nil => rw [hrec] at ih; simpa using ih.symm
      | cons l ls =>
        rw [hrec] at ih
        simpa using ih

theorem join_chunksOf (n : Nat) : ∀ l : List Nat, (chunksOf n l).flatten = l := by
  have H : ∀ (len : Nat) (l : List Nat), l.length ≤ len → (chunksOf n l).flatten = l := by
    intro len
    induction len with
    | zero =>
      intro l hl
      have : l = [] := List.eq_nil_of_length_eq_zero (Nat.le_zero.1 hl)
      simp [this, chunksOf]
    | succ k ih =>
      intro l hl
      cases l with
      | nil => simp [chunksOf]
      | cons c rest =>
        rw [chunksOf]
        simp only [List.flatten_cons]
        have hlen : (rest.drop (n - 1)).length ≤ k := by
          simp only [List.length_drop]
          simp only [List.length_cons] at hl
          omega
        rw [ih _ hlen]
        simp [List.take_append_drop]
  intro l
  exact H l.length l (Nat.le_refl _)

theorem alistGet_set_self {β : Type} :
    ∀ (l : List (String × β)) (k : String) (v : β), alistGet (alistSet l k v) k = some v := by
  intro l
  induction l with
  | nil => intro k v; simp [alistSet, alistGet]
  | cons p rest ih =>
    intro k v
    rcases p with ⟨k1, w⟩
    by_cases hk : k = k1
    · subst hk; simp [alistSet, alistGet]
    · simp [alistSet, alistGet, hk, ih]

/-! ### Chunk-invariance of the parser -/

theorem markerOf_ne_nil (bd : List Nat) : markerOf bd ≠ [] := by
  simp [markerOf]

theorem step_none_nil (bd : List Nat) (c : PCore) : step bd c [] = none := by
  obtain ⟨mode, parts⟩ := c
  cases mode <;> simp [step, splitAtMarker, heldSplit]

theorem step_shrink (bd : List Nat) (c : PCore) (b : List Nat) (c2 : PCore)
    (b2 : List Nat) (h : step bd c b = some (c2, b2)) : b2.length < b.length := by
  obtain ⟨mode, parts⟩ := c
  cases mode with
  | seeking =>
    simp only [step] at h
    cases hs : splitAtMarker (markerOf bd) b with
    | none => rw [hs] at h; cases h
    | some p =>
      rcases p with ⟨before, after⟩
      rw [hs] at h
      cases h
      have := splitAtMarker_eq hs
      subst this
      simp [markerOf]
      omega
  | afterMarker =>
    match b with
    | [] => cases h
    | [a] => cases h
    | a :: b1 :: rest =>
      simp only [step] at h
      by_cases h1 : a = 45 ∧ b1 = 45
      · rw [if_pos h1] at h; cases h; simp only [List.length_cons]; omega
      · rw [if_neg h1] at h
        by_cases h2 : a = 13 ∧ b1 = 10
        · rw [if_pos h2] at h; cases h; simp only [List.length_cons]; omega
        · rw [if_neg h2] at h; cases h; simp only [List.length_cons]; omega
  | headersMode acc =>
    simp only [step] at h
    cases hs : splitAtMarker crlfBytes b with
    | none => rw [hs] at h; cases h
    | some p =>
      rcases p with ⟨line, after⟩
      simp only [hs] at h
      have := splitAtMarker_eq hs
      subst this
      by_cases hl : line = []
      · rw [if_pos hl] at h; cases h; simp [crlfBytes]; omega
      · rw [if_neg hl] at h; cases h; simp [crlfBytes]; omega
  | bodyMode =>
    simp only [step] at h
    cases hs : splitAtMarker (markerOf bd) b with
    | none =>
      rw [hs] at h
      simp only [] at h
      by_cases hf : (heldSplit crlfBytes (markerOf bd) b).1 = []
      · rw [if_pos hf] at h; cases h
      · rw [if_neg hf] at h
        cases h
        have hb := heldSplit_eq_append crlfBytes (markerOf bd) b
        conv_rhs => rw [hb]
        simp only [List.length_append]
        have : (heldSplit crlfBytes (markerOf bd) b).1.length ≠ 0 := by
          simpa [List.length_eq_zero] using hf
        omega
    | some p =>
      rcases p with ⟨body, after⟩
      rw [hs] at h
      cases h
      have := splitAtMarker_eq hs
      subst this
      simp [markerOf]
      omega
  | doneMode =>
    match b with
    | [] => cases h
    | x :: rest =>
      simp only [step] at h
      cases h
      simp

theorem runF_nil (bd : List Nat) (c : PCore) : ∀ fuel, runF bd fuel c [] = (c, []) := by
  intro fuel
  cases fuel with
  | zero => rfl
  | succ k => simp [runF, step_none_nil]

theorem runF_stall (bd : List Nat) {c : PCore} {b : List Nat}
    (h : step bd c b = none) : ∀ fuel, runF bd fuel c b = (c, b) := by
  intro fuel
  cases fuel with
  | zero => rfl
  | succ k => simp [runF, h]

theorem runF_fuel (bd : List Nat) :
    ∀ (f1 f2 : Nat) (c : PCore) (b : List Nat), b.length ≤ f1 → b.length ≤ f2 →
      runF bd f1 c b = runF bd f2 c b := by
  intro f1
  induction f1 with
  | zero =>
    intro f2 c b h1 _
    have : b = [] := List.eq_nil_of_length_eq_zero (Nat.le_zero.1 h1)
    subst this
    rw [runF_nil, runF_nil]
  | succ k ih =>
    intro f2 c b h1 h2
    cases hstep : step bd c b with
    | none => rw [runF_stall bd hstep, runF_stall bd hstep]
    | some p =>
      rcases p with ⟨c2, b2⟩
      have hlt : b2.length < b.length := step_shrink bd c b c2 b2 hstep
      cases f2 with
      | zero =>
        exfalso
        have : b = [] := List.eq_nil_of_length_eq_zero (Nat.le_zero.1 h2)
        subst this
        rw [step_none_nil] at hstep
        cases hstep
      | succ k2 =>
        simp only [runF, hstep]
        exact ih k2 c2 b2 (by omega) (by omega)

theorem runP_stall (bd : List Nat) {c : PCore} {b : List Nat}
    (h : step bd c b = none) : runP bd c b = (c, b) :=
  runF_stall bd h b.length

theorem runP_step (bd : List Nat) {c : PCore} {b : List Nat} {c2 : PCore}
    {b2 : List Nat} (h : step bd c b = some (c2, b2)) :
    runP bd c b = runP bd c2 b2 := by
  have hlt : b2.length < b.length := step_shrink bd c b c2 b2 h
  rw [runP]
  cases hb : b.length with
  | zero =>
    exfalso
    have : b = [] := List.eq_nil_of_length_eq_zero hb
    subst this
    rw [step_none_nil] at h
    cases h
  | succ k =>
    simp only [runF, h]
    rw [runP]
    exact runF_fuel bd k b2.length c2 b2 (by omega) (Nat.le_refl _)

theorem isPre_short_of_append {α : Type} [DecidableEq α] {p x v : List α}
    (h : isPre p (x ++ v) = true) (hlen : x.length ≤ p.length) :
    isPre x p = true := by
  obtain ⟨t, ht⟩ := (isPre_iff p (x ++ v)).1 h
  have hx : x <+: x ++ v := List.prefix_append x v
  have hp : p <+: x ++ v := ⟨t, ht.symm⟩
  obtain ⟨t2, ht2⟩ := List.prefix_of_prefix_length_le hx hp hlen
  exact (isPre_iff x p).2 ⟨t2, ht2.symm⟩

theorem splitAtMarker_heldSplit_append {α : Type} [DecidableEq α]
    (pre p : List α) :
    ∀ (u v : List α), splitAtMarker p u = none →
      splitAtMarker p (u ++ v) =
        (splitAtMarker p ((heldSplit pre p u).2 ++ v)).map
          (fun ba => ((heldSplit pre p u).1 ++ ba.1, ba.2)) := by
  intro u
  induction u with
  | nil =>
    intro v _
    simp only [heldSplit, List.nil_append]
    cases hv : splitAtMarker p v with
    | none => simp
    | some ba => rcases ba with ⟨b, a⟩; simp
  | cons x rest ih =>
    intro v hnone
    obtain ⟨hhead, hrest⟩ := splitAtMarker_none_not_head hnone
    by_cases hc : cand pre p (x :: rest) = true
    · have hh : heldSplit pre p (x :: rest) = ([], x :: rest) := by
        rw [heldSplit, if_pos hc]
      rw [hh]
      cases hv : splitAtMarker p ((x :: rest) ++ v) with
      | none => simp
      | some ba => rcases ba with ⟨b, a⟩; simp
    · have hh : heldSplit pre p (x :: rest) =
          (x :: (heldSplit pre p rest).1, (heldSplit pre p rest).2) := by
        rw [heldSplit, if_neg hc]
      rw [hh]
      have hnp : isPre p (x :: (rest ++ v)) = false := by
        by_cases hxlen : (x :: rest).length ≤ p.length
        · by_cases hip : isPre p (x :: (rest ++ v)) = true
          · exfalso
            have hpre : isPre (x :: rest) p = true :=
              isPre_short_of_append (by simpa using hip) hxlen
            exact hc (by simp [cand, hpre])
          · simpa using hip
        · have heq : isPre p ((x :: rest) ++ v) = isPre p (x :: rest) :=
            isPre_of_append_of_le p (x :: rest) v (by omega)
          rw [List.cons_append] at heq
          rw [heq]
          simpa using hhead
      rw [List.cons_append, splitAtMarker, if_neg (by simp [hnp])]
      rw [ih v hrest]
      cases hv : splitAtMarker p ((heldSplit pre p rest).2 ++ v) with
      | none => simp
      | some ba => rcases ba with ⟨b, a⟩; simp

theorem appendLast_append :
    ∀ (ps : List Part) (x y : List Nat),
      appendLast (appendLast ps x) y = appendLast ps (x ++ y)
  | [], _, _ => rfl
  | [p], x, y => by simp [appendLast]
  | p :: q :: rest, x, y => by
    have ih := appendLast_append (q :: rest) x y
    simp only [appendLast]
    rw [← ih]
    cases hqq : appendLast (q :: rest) x with
    | nil => cases rest <;> simp [appendLast] at hqq
    | cons q2 r2 => simp [appendLast]

theorem stripCRLF_append_of_two_le {f B : List Nat} (h : 2 ≤ B.length) :
    stripCRLF (f ++ B) = f ++ stripCRLF B := by
  rw [stripCRLF, stripCRLF]
  rw [isSuf_append_of_le crlfBytes f B (by simp [crlfBytes]; omega)]
  by_cases hs : isSuf crlfBytes B = true
  · rw [if_pos hs, if_pos hs]
    rw [List.length_append, List.take_append_eq_append_take]
    congr 1
    · exact List.take_of_length_le (by omega)
    · congr 1
      omega
  · rw [if_neg hs, if_neg hs]

theorem append_singleton_eq_append_pair {f w0 : List Nat} {x a b : Nat}
    (h : f ++ [x] = w0 ++ [a, b]) : x = b ∧ f = w0 ++ [a] := by
  have hr := congrArg List.reverse h
  simp only [List.reverse_append, List.reverse_cons, List.reverse_nil,
    List.nil_append, List.cons_append] at hr
  obtain ⟨hx, hf⟩ := List.cons.injEq _ _ _ _ ▸ hr
  refine ⟨hx, ?_⟩
  have := congrArg List.reverse hf
  simpa using this

theorem stripCRLF_flush (bd : List Nat) {u v f h B A : List Nat}
    (hsplit : splitAtMarker (markerOf bd) u = none)
    (hheld : heldSplit crlfBytes (markerOf bd) u = (f, h))
    (hsplit2 : splitAtMarker (markerOf bd) (h ++ v) = some (B, A)) :
    stripCRLF (f ++ B) = f ++ stripCRLF B := by
  by_cases hlenB : 2 ≤ B.length
  · exact stripCRLF_append_of_two_le hlenB
  · have hchar : h ++ v = B ++ markerOf bd ++ A := splitAtMarker_eq hsplit2
    have hu : u = f ++ h := by
      have hx := heldSplit_eq_append crlfBytes (markerOf bd) u
      rw [hheld] at hx
      exact hx
    have hmax : ∀ s, s <:+ u → cand crlfBytes (markerOf bd) s = true →
        s.length ≤ h.length := by
      intro s hs hc
      have hx := heldSplit_max crlfBytes (markerOf bd) u s hs hc
      rw [hheld] at hx
      exact hx
    have hnoinf : ∀ x y, u ≠ x ++ markerOf bd ++ y :=
      splitAtMarker_none_no_infix hsplit (markerOf_ne_nil bd)
    have hnosuf : ¬isSuf crlfBytes (f ++ B) = true := by
      intro hsuf
      obtain ⟨w0, hw0⟩ := (isSuf_iff _ _).1 hsuf
      cases B with
      | nil =>
        have hf : f = w0 ++ [13, 10] := by simpa [crlfBytes] using hw0
        have hmk : h ++ v = markerOf bd ++ A := by simpa using hchar
        rcases List.append_eq_append_iff.1 hmk with ⟨a2, ha2, _⟩ | ⟨c2, hc2, _⟩
        · have hcand : cand crlfBytes (markerOf bd) (crlfBytes ++ h) = true := by
            have : isPre (crlfBytes ++ h) (crlfBytes ++ markerOf bd) = true := by
              refine (isPre_iff _ _).2 ⟨a2, ?_⟩
              rw [ha2]
              simp
            simp [cand, this]
          have hsfx : (crlfBytes ++ h) <:+ u := by
            refine ⟨w0, ?_⟩
            rw [hu, hf]
            simp [crlfBytes]
          have hlen2 := hmax _ hsfx hcand
          simp [crlfBytes] at hlen2
          omega
        · exact hnoinf f c2 (by rw [hu, hc2]; simp)
      | cons x B2 =>
        have hB2 : B2 = [] := by
          simp only [List.length_cons] at hlenB
          have : B2.length = 0 := by omega
          exact List.eq_nil_of_length_eq_zero this
        subst hB2
        obtain ⟨hx10, hf⟩ := append_singleton_eq_append_pair
          (show f ++ [x] = w0 ++ [13, 10] by simpa [crlfBytes] using hw0)
        subst hx10
        have hmk : h ++ v = 10 :: (markerOf bd ++ A) := by simpa using hchar
        cases h with
        | nil =>
          have hcand : cand crlfBytes (markerOf bd) [13] = true := by
            simp [cand, crlfBytes, markerOf, isPre]
          have hsfx : [13] <:+ u := by
            refine ⟨w0, ?_⟩
            rw [hu, hf]
            simp
          have := hmax _ hsfx hcand
          simp at this
        | cons y h2 =>
          have hy : y = 10 ∧ h2 ++ v = markerOf bd ++ A := by
            have := List.cons.injEq y (h2 ++ v) 10 (markerOf bd ++ A) ▸ hmk
            simpa using this
          obtain ⟨rfl, hmk2⟩ := hy
          rcases List.append_eq_append_iff.1 hmk2 with ⟨a2, ha2, _⟩ | ⟨c2, hc2, _⟩
          · have hcand : cand crlfBytes (markerOf bd) (13 :: 10 :: h2) = true := by
              have : isPre (crlfBytes ++ h2) (crlfBytes ++ markerOf bd) = true := by
                refine (isPre_iff _ _).2 ⟨a2, ?_⟩
                rw [ha2]
                simp
              simpa [cand, crlfBytes] using Bool.or_eq_true_iff.2 (Or.inr this)
            have hsfx : (13 :: 10 :: h2) <:+ u := by
              refine ⟨w0, ?_⟩
              rw [hu, hf]
              simp
            have := hmax _ hsfx hcand
            simp at this
          · refine hnoinf (f ++ [10]) c2 ?_
            rw [hu, hc2]
            simp
    have hnosufB : ¬isSuf crlfBytes B = true := by
      intro hsb
      obtain ⟨t, ht⟩ := (isSuf_iff _ _).1 hsb
      rw [ht] at hlenB
      simp [crlfBytes] at hlenB
    rw [stripCRLF, stripCRLF, if_neg hnosuf, if_neg hnosufB]

theorem step_extend (bd : List Nat) (c : PCore) (u v : List Nat) (c2 : PCore)
    (b2 : List Nat) (hstep : step bd c u = some (c2, b2))
    (hside : c.mode = PMode.bodyMode → splitAtMarker (markerOf bd) u ≠ none) :
    step bd c (u ++ v) = some (c2, b2 ++ v) := by
  obtain ⟨mode, parts⟩ := c
  cases mode with
  | seeking =>
    simp only [step] at hstep ⊢
    cases hs : splitAtMarker (markerOf bd) u with
    | none => rw [hs] at hstep; cases hstep
    | some p =>
      rcases p with ⟨before, after⟩
      simp only [hs] at hstep
      cases hstep
      rw [splitAtMarker_some_append v hs]
  | afterMarker =>
    match u with
    | [] => cases hstep
    | [a] => cases hstep
    | a :: b1 :: rest =>
      simp only [step] at hstep
      by_cases h1 : a = 45 ∧ b1 = 45
      · rw [if_pos h1] at hstep
        cases hstep
        simp only [List.cons_append, step]
        rw [if_pos h1]
      · rw [if_neg h1] at hstep
        by_cases h2 : a = 13 ∧ b1 = 10
        · rw [if_pos h2] at hstep
          cases hstep
          simp only [List.cons_append, step]
          rw [if_neg h1, if_pos h2]
        · rw [if_neg h2] at hstep
          cases hstep
          simp only [List.cons_append, step]
          rw [if_neg h1, if_neg h2]
  | headersMode acc =>
    cases hs : splitAtMarker crlfBytes u with
    | none => simp only [step, hs] at hstep; cases hstep
    | some p =>
      rcases p with ⟨line, after⟩
      simp only [step, hs] at hstep
      have hs2 := splitAtMarker_some_append v hs
      by_cases hl : line = []
      · rw [if_pos hl] at hstep
        cases hstep
        simp only [step, hs2]
        rw [if_pos hl]
      · rw [if_neg hl] at hstep
        cases hstep
        simp only [step, hs2]
        rw [if_neg hl]
  | bodyMode =>
    cases hs : splitAtMarker (markerOf bd) u with
    | none => exact absurd hs (hside rfl)
    | some p =>
      rcases p with ⟨body, after⟩
      simp only [step, hs] at hstep
      cases hstep
      simp only [step, splitAtMarker_some_append v hs]
  | doneMode =>
    match u with
    | [] => cases hstep
    | x :: rest =>
      simp only [step] at hstep
      cases hstep
      simp only [List.cons_append, step]

theorem runP_append (bd : List Nat) :
    ∀ (u : List Nat) (c : PCore) (v : List Nat),
      runP bd c (u ++ v) = runP bd (runP bd c u).1 ((runP bd c u).2 ++ v) := by
  have H : ∀ (n : Nat) (u : List Nat), u.length ≤ n → ∀ (c : PCore) (v : List Nat),
      runP bd c (u ++ v) = runP bd (runP bd c u).1 ((runP bd c u).2 ++ v) := by
    intro n
    induction n with
    | zero =>
      intro u hu c v
      have hnil : u = [] := List.eq_nil_of_length_eq_zero (Nat.le_zero.1 hu)
      subst hnil
      have h0 : runP bd c [] = (c, []) := by
        rw [runP, runF_nil]
      rw [h0]
    | succ k ih =>
      intro u hu c v
      cases hstep : step bd c u with
      | none => rw [runP_stall bd hstep]
      | some p =>
        rcases p with ⟨c2, b2⟩
        have hlt : b2.length < u.length := step_shrink bd c u c2 b2 hstep
        have hru : runP bd c u = runP bd c2 b2 := runP_step bd hstep
        by_cases hbody : c.mode = PMode.bodyMode ∧ splitAtMarker (markerOf bd) u = none
        · obtain ⟨hm, hsn⟩ := hbody
          obtain ⟨mode, parts⟩ := c
          subst hm
          simp only [step, hsn] at hstep
          by_cases hf : (heldSplit crlfBytes (markerOf bd) u).1 = []
          · rw [if_pos hf] at hstep; cases hstep
          · rw [if_neg hf] at hstep
            cases hstep
            rw [hru, ← ih (heldSplit crlfBytes (markerOf bd) u).2
              (by omega)
              ⟨PMode.bodyMode, appendLast parts (heldSplit crlfBytes (markerOf bd) u).1⟩ v]
            cases hsv : splitAtMarker (markerOf bd)
                ((heldSplit crlfBytes (markerOf bd) u).2 ++ v) with
            | some q =>
              rcases q with ⟨B2, A2⟩
              have hsuv : splitAtMarker (markerOf bd) (u ++ v) =
                  some ((heldSplit crlfBytes (markerOf bd) u).1 ++ B2, A2) := by
                rw [splitAtMarker_heldSplit_append crlfBytes (markerOf bd) u v hsn, hsv]
                rfl
              have hstepL : step bd ⟨PMode.bodyMode, parts⟩ (u ++ v) =
                  some (⟨PMode.afterMarker, finishLast (appendLast parts
                    (stripCRLF ((heldSplit crlfBytes (markerOf bd) u).1 ++ B2)))⟩, A2) := by
                simp only [step, hsuv]
              have hstepR : step bd
                  ⟨PMode.bodyMode, appendLast parts (heldSplit crlfBytes (markerOf bd) u).1⟩
                  ((heldSplit crlfBytes (markerOf bd) u).2 ++ v) =
                  some (⟨PMode.afterMarker, finishLast (appendLast
                    (appendLast parts (heldSplit crlfBytes (markerOf bd) u).1)
                    (stripCRLF B2))⟩, A2) := by
                simp only [step, hsv]
              rw [runP_step bd hstepL, runP_step bd hstepR]
              have hstrip := stripCRLF_flush bd hsn
                (show heldSplit crlfBytes (markerOf bd) u =
                  ((heldSplit crlfBytes (markerOf bd) u).1,
                   (heldSplit crlfBytes (markerOf bd) u).2) from rfl) hsv
              rw [hstrip, ← appendLast_append]
            | none =>
              have hsuv : splitAtMarker (markerOf bd) (u ++ v) = none := by
                rw [splitAtMarker_heldSplit_append crlfBytes (markerOf bd) u v hsn, hsv]
                rfl
              have hheldv := heldSplit_append crlfBytes (markerOf bd) u v
              have hstepL : step bd ⟨PMode.bodyMode, parts⟩ (u ++ v) =
                  some (⟨PMode.bodyMode, appendLast parts
                    ((heldSplit crlfBytes (markerOf bd) u).1 ++
                      (heldSplit crlfBytes (markerOf bd)
                        ((heldSplit crlfBytes (markerOf bd) u).2 ++ v)).1)⟩,
                    (heldSplit crlfBytes (markerOf bd)
                      ((heldSplit crlfBytes (markerOf bd) u).2 ++ v)).2) := by
                simp only [step, hsuv, hheldv]
                rw [if_neg (by simp [hf])]
              by_cases hf2 : (heldSplit crlfBytes (markerOf bd)
                  ((heldSplit crlfBytes (markerOf bd) u).2 ++ v)).1 = []
              · have hh2 : (heldSplit crlfBytes (markerOf bd)
                    ((heldSplit crlfBytes (markerOf bd) u).2 ++ v)).2 =
                    (heldSplit crlfBytes (markerOf bd) u).2 ++ v := by
                  have hx := heldSplit_eq_append crlfBytes (markerOf bd)
                    ((heldSplit crlfBytes (markerOf bd) u).2 ++ v)
                  rw [hf2] at hx
                  simpa using hx.symm
                rw [runP_step bd hstepL, hf2, hh2]
                simp
              · have hstepR : step bd
                    ⟨PMode.bodyMode, appendLast parts (heldSplit crlfBytes (markerOf bd) u).1⟩
                    ((heldSplit crlfBytes (markerOf bd) u).2 ++ v) =
                    some (⟨PMode.bodyMode, appendLast
                      (appendLast parts (heldSplit crlfBytes (markerOf bd) u).1)
                      (heldSplit crlfBytes (markerOf bd)
                        ((heldSplit crlfBytes (markerOf bd) u).2 ++ v)).1⟩,
                      (heldSplit crlfBytes (markerOf bd)
                        ((heldSplit crlfBytes (markerOf bd) u).2 ++ v)).2) := by
                  simp only [step, hsv]
                  rw [if_neg hf2]
                rw [runP_step bd hstepL, runP_step bd hstepR, appendLast_append]
        · have hside : c.mode = PMode.bodyMode → splitAtMarker (markerOf bd) u ≠ none := by
            intro hm2 hsn2
            exact hbody ⟨hm2, hsn2⟩
          have hstepv := step_extend bd c u v c2 b2 hstep hside
          rw [runP_step bd hstepv, hru]
          exact ih b2 (by omega) c2 v
  intro u c v
  exact H u.length u (Nat.le_refl _) c v

/-! ## Round-trip lemmas -/

theorem alistSet_alistSet {β : Type} :
    ∀ (l : List (String × β)) (k : String) (v w : β),
      alistSet (alistSet l k v) k w = alistSet l k w := by
  intro l
  induction l with
  | nil => intro k v w; simp [alistSet]
  | cons p rest ih =>
    intro k v w
    rcases p with ⟨k1, x⟩
    by_cases hk : k = k1
    · subst hk; simp [alistSet]
    · simp [alistSet, hk, ih]

theorem alistSet_self {β : Type} :
    ∀ (l : List (String × β)) (k : String) (v : β),
      alistGet l k = some v → alistSet l k v = l := by
  intro l
  induction l with
  | nil => intro k v h; simp [alistGet] at h
  | cons p rest ih =>
    intro k v h
    rcases p with ⟨k1, x⟩
    by_cases hk : k = k1
    · subst hk
      simp [alistGet] at h
      simp [alistSet, h]
    · simp [alistGet, hk] at h
      simp only [alistSet, if_neg hk]
      rw [ih k v h]

theorem mem_writes_eq :
    ∀ (chunks : List (List Nat)) (s : MemState) (k : String) (buf : List Nat),
      alistGet s.streams k = some buf →
      MemoryFileDelegate.writes s k chunks =
        { s with streams := alistSet s.streams k (buf ++ chunks.flatten) } := by
  intro chunks
  induction chunks with
  | nil =>
    intro s k buf hget
    simp only [MemoryFileDelegate.writes, List.foldl_nil, List.flatten_nil,
      List.append_nil]
    rw [alistSet_self s.streams k buf hget]
  | cons d ds ih =>
    intro s k buf hget
    have hw : MemoryFileDelegate.write s k d =
        { s with streams := alistSet s.streams k (buf ++ d) } := by
      rw [MemoryFileDelegate.write, hget]
    have hnext : alistGet (alistSet s.streams k (buf ++ d)) k = some (buf ++ d) :=
      alistGet_set_self s.streams k (buf ++ d)
    calc MemoryFileDelegate.writes s k (d :: ds)
        = MemoryFileDelegate.writes { s with streams := alistSet s.streams k (buf ++ d) } k ds := by
          simp only [MemoryFileDelegate.writes, List.foldl_cons, hw]
      _ = { s with streams := alistSet (alistSet s.streams k (buf ++ d)) k ((buf ++ d) ++ ds.flatten) } := ih _ k (buf ++ d) hnext
      _ = { s with streams := alistSet s.streams k (buf ++ (d :: ds).flatten) } := by
          rw [alistSet_alistSet]
          simp

/-- C1, MemoryFileDelegate part: the committed bytes read back equal the
concatenation of all written chunks, from any initial state. -/
theorem mem_round_trip (s : MemState) (k : String) (chunks : List (List Nat)) :
    MemoryFileDelegate.read_all
      (MemoryFileDelegate.finish_write
        (MemoryFileDelegate.writes (MemoryFileDelegate.start_write s k) k chunks) k) k =
      chunks.flatten := by
  have hstart : alistGet (MemoryFileDelegate.start_write s k).streams k = some [] := by
    rw [MemoryFileDelegate.start_write]
    exact alistGet_set_self s.streams k []
  rw [mem_writes_eq chunks _ k [] hstart]
  simp only [List.nil_append]
  have hget : alistGet (alistSet (MemoryFileDelegate.start_write s k).streams k
      chunks.flatten) k = some chunks.flatten := alistGet_set_self _ k _
  rw [MemoryFileDelegate.finish_write]
  simp only [hget]
  rw [MemoryFileDelegate.read_all, MemoryFileDelegate.read_generator]
  simp only [alistGet_set_self]
  by_cases hfl : chunks.flatten = []
  · rw [if_pos hfl, hfl]
    rfl
  · rw [if_neg hfl]
    simp

theorem sync_writes_eq :
    ∀ (chunks : List (List Nat)) (s : SyncState) (k path : String) (content : List Nat),
      alistGet s.streams k = some (path, true) →
      alistGet s.files path = some content →
      SynchronousFileDelegate.writes s k chunks =
        Except.ok { s with files := alistSet s.files path (content ++ chunks.flatten) } := by
  intro chunks
  induction chunks with
  | nil =>
    intro s k path content hstm hfile
    simp only [SynchronousFileDelegate.writes, List.foldlM_nil, List.flatten_nil,
      List.append_nil]
    rw [alistSet_self s.files path content hfile]
    rfl
  | cons d ds ih =>
    intro s k path content hstm hfile
    have hw : SynchronousFileDelegate.write s k d =
        Except.ok { s with files := alistSet s.files path (content ++ d) } := by
      rw [SynchronousFileDelegate.write, hstm]
      simp [hfile]
    have hnext : SynchronousFileDelegate.writes s k (d :: ds) =
        SynchronousFileDelegate.writes
          { s with files := alistSet s.files path (content ++ d) } k ds := by
      simp only [SynchronousFileDelegate.writes, List.foldlM_cons, hw]
      rfl
    rw [hnext]
    rw [ih { s with files := alistSet s.files path (content ++ d) } k path (content ++ d) hstm (alistGet_set_self _ _ _)]
    rw [alistSet_alistSet]
    simp

/-- C1, SynchronousFileDelegate part. -/
theorem sync_round_trip (s : SyncState) (root k : String) (chunks : List (List Nat)) :
    ((SynchronousFileDelegate.writes
        (SynchronousFileDelegate.start_write root s k) k chunks).bind
      (fun s2 => SynchronousFileDelegate.finish_write s2 k)).map
      (fun s3 => SynchronousFileDelegate.read_all s3 k) =
    Except.ok chunks.flatten := by
  have hstm : alistGet (SynchronousFileDelegate.start_write root s k).streams k =
      some (joinPath root k, true) := alistGet_set_self _ _ _
  have hfile : alistGet (SynchronousFileDelegate.start_write root s k).files
      (joinPath root k) = some [] := alistGet_set_self _ _ _
  rw [sync_writes_eq chunks _ k (joinPath root k) [] hstm hfile]
  simp only [List.nil_append, Except.bind]
  rw [SynchronousFileDelegate.finish_write]
  simp only [hstm]
  simp only [Except.map]
  congr 1
  rw [SynchronousFileDelegate.read_all, SynchronousFileDelegate.read_generator]
  have hpath : alistGet (SynchronousFileDelegate.start_write root s k).paths k =
      some (joinPath root k) := alistGet_set_self _ _ _
  simp only [hpath]
  simp only [alistGet_set_self, Option.getD_some, Option.getD_none]
  simp only [List.drop_zero]
  exact join_linesOf chunks.flatten

theorem threaded_writes_eq :
    ∀ (chunks : List (List Nat)) (s : ThreadedState) (k path : String) (content : List Nat),
      alistGet s.streams k = some (path, true) →
      alistGet s.files path = some content →
      ThreadedFileDelegate.writes s k chunks =
        Except.ok { s with files := alistSet s.files path (content ++ chunks.flatten) } := by
  intro chunks
  induction chunks with
  | nil =>
    intro s k path content hstm hfile
    simp only [ThreadedFileDelegate.writes, List.foldlM_nil, List.flatten_nil,
      List.append_nil]
    rw [alistSet_self s.files path content hfile]
    rfl
  | cons d ds ih =>
    intro s k path content hstm hfile
    have hw : ThreadedFileDelegate.write s k d =
        Except.ok { s with files := alistSet s.files path (content ++ d) } := by
      rw [ThreadedFileDelegate.write, hstm]
      simp [hfile]
    have hnext : ThreadedFileDelegate.writes s k (d :: ds) =
        ThreadedFileDelegate.writes
          { s with files := alistSet s.files path (content ++ d) } k ds := by
      simp only [ThreadedFileDelegate.writes, List.foldlM_cons, hw]
      rfl
    rw [hnext]
    rw [ih { s with files := alistSet s.files path (content ++ d) } k path (content ++ d) hstm (alistGet_set_self _ _ _)]
    rw [alistSet_alistSet]
    simp

/-- C1, ThreadedFileDelegate part. -/
theorem threaded_round_trip (s : ThreadedState) (root k : String)
    (chunks : List (List Nat)) :
    ((ThreadedFileDelegate.writes
        (ThreadedFileDelegate.start_write root s k) k chunks).bind
      (fun s2 => ThreadedFileDelegate.finish_write s2 k)).bind
      (fun s3 => (ThreadedFileDelegate.read_full root s3 k).map List.flatten) =
    Except.ok chunks.flatten := by
  have hstm : alistGet (ThreadedFileDelegate.start_write root s k).streams k =
      some (joinPath root k, true) := alistGet_set_self _ _ _
  have hfile : alistGet (ThreadedFileDelegate.start_write root s k).files
      (joinPath root k) = some [] := alistGet_set_self _ _ _
  rw [threaded_writes_eq chunks _ k (joinPath root k) [] hstm hfile]
  simp only [List.nil_append, Except.bind]
  rw [ThreadedFileDelegate.finish_write]
  simp only [hstm]
  rw [ThreadedFileDelegate.read_full]
  simp only [alistGet_set_self]
  simp only [Except.map]
  rw [join_chunksOf]

/-! ## Claim theorems -/

/-- C1: Round-trip — for every byte payload (as any chunking) and every
storage delegate backend in the snapshot (`MemoryFileDelegate`,
`SynchronousFileDelegate`, `ThreadedFileDelegate`), `start_write`, then
`write` of the chunks, then `finish_write`, then reading the object back
in full with no offsets, returns exactly the payload. -/
theorem claim_round_trip_all_backends :
    (∀ (s : MemState) (k : String) (chunks : List (List Nat)),
      MemoryFileDelegate.read_all
        (MemoryFileDelegate.finish_write
          (MemoryFileDelegate.writes (MemoryFileDelegate.start_write s k) k chunks) k) k =
        chunks.flatten) ∧
    (∀ (s : SyncState) (root k : String) (chunks : List (List Nat)),
      ((SynchronousFileDelegate.writes
          (SynchronousFileDelegate.start_write root s k) k chunks).bind
        (fun s2 => SynchronousFileDelegate.finish_write s2 k)).map
        (fun s3 => SynchronousFileDelegate.read_all s3 k) =
      Except.ok chunks.flatten) ∧
    (∀ (s : ThreadedState) (root k : String) (chunks : List (List Nat)),
      ((ThreadedFileDelegate.writes
          (ThreadedFileDelegate.start_write root s k) k chunks).bind
        (fun s2 => ThreadedFileDelegate.finish_write s2 k)).bind
        (fun s3 => (ThreadedFileDelegate.read_full root s3 k).map List.flatten) =
      Except.ok chunks.flatten) :=
  ⟨mem_round_trip, sync_round_trip, threaded_round_trip⟩

/-- Two `data_received` calls are equivalent to one call with the
concatenated bytes — the heart of chunk invariance. -/
theorem dataReceived_append (p : MultipartFormDataParser) (a b : List Nat) :
    dataReceived (dataReceived p a) b = dataReceived p (a ++ b) := by
  rcases p with ⟨bd, c, buf⟩
  simp only [dataReceived]
  rw [← List.append_assoc]
  rw [runP_append bd (buf ++ a) c b]

/-- C6: Multipart parser chunk-invariance (spec-modelled parser): for
every payload, boundary and split point `i`, feeding `payload[:i]` then
`payload[i:]` leaves the parser in exactly the state produced by feeding
the whole payload at once — in particular the same parsed part names,
part headers, and reassembled part bodies at the sink.  (Iterating the
two-chunk case extends this to any finer split.) -/
theorem claim_multipart_chunk_invariance (boundary payload : List Nat) (i : Nat) :
    dataReceived (dataReceived (mkParser boundary) (payload.take i)) (payload.drop i) =
      dataReceived (mkParser boundary) payload := by
  rw [dataReceived_append, List.take_append_drop]

/-- C2 (code bug): for the committed payload `b"ab\ncd\n"`,
`read_generator(key, start=0, end=1)` yields `b"a"` from the first line
and then — because the `else` branch of the ranged loop neither returns
nor advances `start` — also yields `b"c"` from the second line: the
concatenation is `b"ac"`, not the slice `P[0:1] = b"a"` that the claim
(and every sibling backend) requires. -/
theorem claim_range_read_sync_bug :
    (SynchronousFileDelegate.read_generator syncStateC2 "k" (some 0) (some 1)).flatten
      = [97, 99] ∧
    pySlice [97, 98, 10, 99, 100, 10] 0 1 = [97] ∧
    ([97, 99] : List Nat) ≠ [97] := by
  refine ⟨?_, by decide, by decide⟩
  decide

/-- C3 (code bug): with the tracked size (2048) above `max_size` (1024),
`vacuum()` does not terminate with the bound re-established — its first
loop iteration raises `AttributeError` (`popitem` returns a `(key,
value)` tuple and the code reads `item.internal_key` on it), and even
with that fixed the `max_size` loop never decrements `_current_size`. -/
theorem claim_vacuum_bound_bug :
    managerTwoEntries.currentSize = 2048 ∧
    SimpleFileManager.vacuum managerTwoEntries = Except.error PyErr.attributeError := by
  decide

/-- C4 (code bug): when `vacuum()` must evict, the entry handed to
`popitem(last=True)` is the most-recently-inserted one (`b.txt`),
not the oldest (`a.txt`) that the claim requires — and the call then
raises `AttributeError` instead of removing the storage object. -/
theorem claim_vacuum_eviction_order_bug :
    SimpleFileManager.vacuumEvictTarget managerTwoEntries = some "b.txt" ∧
    SimpleFileManager.vacuumEvictTarget managerTwoEntries ≠ some "a.txt" ∧
    SimpleFileManager.vacuum managerTwoEntries ≠
      Except.ok { managerTwoEntries with
                  cache := [("b.txt", infoOfSize "b.txt" "ib" 1024)] } := by
  decide

/-- C5 (code bug): the `If-Modified-Since` comparison in `check_if_304`
is inverted.  With no etag and `last_modified = 100`: a header that
parses to `102` (later, which the claim — and the repository's own
tests — require to produce 304/true) yields `false`, while `99`
(earlier, which must produce 200/false) yields `true`.  And with an
etag present, a mismatching `If-None-Match` does not suppress the
`Last-Modified` check as the claim's strict priority requires. -/
theorem claim_check_if_304_bug :
    check_if_304 none (some 100) [("If-Modified-Since", "102")] = Except.ok false ∧
    check_if_304 none (some 100) [("If-Modified-Since", "99")] = Except.ok true ∧
    check_if_304 (some "x") (some 100)
      [("If-None-Match", "\"y\""), ("If-Modified-Since", "99")] = Except.ok true :=
  ⟨rfl, rfl, rfl⟩

/-- C7 counterexample: the claim says `write` on a key with no open
write "fails by raising a StorageError-class error rather than silently
succeeding or dropping the data" for every backend; but
`MemoryFileDelegate.write` on a fresh delegate (no `start_write` ever
issued for `"k"`) returns with the state unchanged — no error is raised
(the operation's type has no error outcome at all) and the bytes are
dropped. -/
theorem claim_write_no_handle_counterexample :
    MemoryFileDelegate.write ⟨[], []⟩ "k" [1, 2, 3] = (⟨[], []⟩ : MemState) := by
  decide

/-- C7 amended: writing with no stream entry raises `CacheError` for
`SynchronousFileDelegate` and `ThreadedFileDelegate`, while
`MemoryFileDelegate` silently ignores the call (state unchanged, data
dropped); and because `finish_write` leaves the closed stream in
`_stream_mapping` for the two file-based delegates, writing after
`finish_write` raises the closed-file `ValueError` there, not the
`CacheError` class (`MemoryFileDelegate.finish_write` pops its stream,
so a write after it is again silently dropped). -/
theorem claim_write_no_handle_amended :
    (∀ (s : MemState) (k : String) (d : List Nat),
      alistGet s.streams k = none → MemoryFileDelegate.write s k d = s) ∧
    (∀ (s : SyncState) (k : String) (d : List Nat),
      alistGet s.streams k = none →
        SynchronousFileDelegate.write s k d = Except.error PyErr.cacheError) ∧
    (∀ (s : ThreadedState) (k : String) (d : List Nat),
      alistGet s.streams k = none →
        ThreadedFileDelegate.write s k d = Except.error PyErr.cacheError) ∧
    (∀ (s : NativeAioState) (k : String) (d : List Nat),
      alistGet s.streams k = none →
        NativeAioFileDelegate.write s k d = Except.error PyErr.cacheError) ∧
    (∀ (s : SyncState) (k path : String) (d : List Nat),
      alistGet s.streams k = some (path, false) →
        SynchronousFileDelegate.write s k d = Except.error PyErr.valueError) ∧
    (∀ (s : ThreadedState) (k path : String) (d : List Nat),
      alistGet s.streams k = some (path, false) →
        ThreadedFileDelegate.write s k d = Except.error PyErr.valueError) ∧
    (∀ (s : NativeAioState) (k path : String) (d : List Nat),
      alistGet s.streams k = some (path, false) →
        NativeAioFileDelegate.write s k d = Except.error PyErr.valueError) := by
  refine ⟨?_, ?_, ?_, ?_, ?_, ?_, ?_⟩
  · intro s k d h
    rw [MemoryFileDelegate.write, h]
  · intro s k d h
    rw [SynchronousFileDelegate.write, h]
  · intro s k d h
    rw [ThreadedFileDelegate.write, h]
  · intro s k d h
    rw [NativeAioFileDelegate.write, h]
  · intro s k path d h
    rw [SynchronousFileDelegate.write, h]
    rfl
  · intro s k path d h
    rw [ThreadedFileDelegate.write, h]
    rfl
  · intro s k path d h
    rw [NativeAioFileDelegate.write, h]
    rfl

/-- Witness for the amended C7 statement at concrete states. -/
theorem claim_write_no_handle_amended_witness :
    MemoryFileDelegate.write ⟨[], []⟩ "k" [1] = (⟨[], []⟩ : MemState) ∧
    SynchronousFileDelegate.write ⟨[], [], []⟩ "k" [1] = Except.error PyErr.cacheError ∧
    ThreadedFileDelegate.write ⟨[], []⟩ "k" [1] = Except.error PyErr.cacheError ∧
    NativeAioFileDelegate.write ⟨[], [], []⟩ "k" [1] = Except.error PyErr.cacheError ∧
    SynchronousFileDelegate.write ⟨[], [("k", ("r/k", false))], []⟩ "k" [1] =
      Except.error PyErr.valueError ∧
    ThreadedFileDelegate.write ⟨[], [("k", ("r/k", false))]⟩ "k" [1] =
      Except.error PyErr.valueError ∧
    NativeAioFileDelegate.write ⟨[], [("k", ("r/k", false))], []⟩ "k" [1] =
      Except.error PyErr.valueError :=
  ⟨claim_write_no_handle_amended.1 ⟨[], []⟩ "k" [1] (by decide),
   claim_write_no_handle_amended.2.1 ⟨[], [], []⟩ "k" [1] (by decide),
   claim_write_no_handle_amended.2.2.1 ⟨[], []⟩ "k" [1] (by decide),
   claim_write_no_handle_amended.2.2.2.1 ⟨[], [], []⟩ "k" [1] (by decide),
   claim_write_no_handle_amended.2.2.2.2.1 ⟨[], [("k", ("r/k", false))], []⟩ "k" "r/k" [1]
     (by decide),
   claim_write_no_handle_amended.2.2.2.2.2.1 ⟨[], [("k", ("r/k", false))]⟩ "k" "r/k" [1]
     (by decide),
   claim_write_no_handle_amended.2.2.2.2.2.2 ⟨[], [("k", ("r/k", false))], []⟩ "k" "r/k" [1]
     (by decide)⟩

/-- C8 counterexample: the claim says `read_generator` on a key in the
`Writing` state (here: after `start_write` and a `write`, before
`finish_write`) or `Absent` is an error, never a partial or empty
result; but on `MemoryFileDelegate` the read yields an empty sequence
with no error in exactly that `Writing` state (and likewise on an
absent key). -/
theorem claim_read_uncommitted_counterexample :
    MemoryFileDelegate.read_generator
      (MemoryFileDelegate.write
        (MemoryFileDelegate.start_write ⟨[], []⟩ "k") "k" [1, 2, 3]) "k" none none = [] ∧
    MemoryFileDelegate.read_generator (⟨[], []⟩ : MemState) "k" none none = [] := by
  decide

/-- C8 amended: reading an `Absent` or still-`Writing` key returns an
empty chunk sequence (no error) on `MemoryFileDelegate`, and an empty
sequence on `SynchronousFileDelegate` when the key was never started;
but a `SynchronousFileDelegate` key in the `Writing` state has its path
registered, so `read_generator` exposes exactly the partially-written
bytes accumulated so far. -/
theorem claim_read_uncommitted_amended :
    (∀ (s : MemState) (k : String) (a b : Option Nat),
      alistGet s.data k = none → MemoryFileDelegate.read_generator s k a b = []) ∧
    (∀ (s : SyncState) (k : String) (a b : Option Nat),
      alistGet s.paths k = none → SynchronousFileDelegate.read_generator s k a b = []) ∧
    (∀ (s : SyncState) (root k : String) (chunks : List (List Nat)) (s2 : SyncState),
      SynchronousFileDelegate.writes
          (SynchronousFileDelegate.start_write root s k) k chunks = Except.ok s2 →
        SynchronousFileDelegate.read_all s2 k = chunks.flatten) := by
  refine ⟨?_, ?_, ?_⟩
  · intro s k a b h
    rw [MemoryFileDelegate.read_generator, h]
  · intro s k a b h
    rw [SynchronousFileDelegate.read_generator, h]
  · intro s root k chunks s2 hw
    have hstm : alistGet (SynchronousFileDelegate.start_write root s k).streams k =
        some (joinPath root k, true) := alistGet_set_self _ _ _
    have hfile : alistGet (SynchronousFileDelegate.start_write root s k).files
        (joinPath root k) = some [] := alistGet_set_self _ _ _
    rw [sync_writes_eq chunks _ k (joinPath root k) [] hstm hfile] at hw
    cases hw
    rw [SynchronousFileDelegate.read_all, SynchronousFileDelegate.read_generator]
    have hpath : alistGet (SynchronousFileDelegate.start_write root s k).paths k =
        some (joinPath root k) := alistGet_set_self _ _ _
    simp only [hpath, List.nil_append, alistGet_set_self, Option.getD_some,
      List.drop_zero]
    exact join_linesOf chunks.flatten

/-- Witness for the amended C8 statement at concrete states: absent and
writing keys on the memory backend, an absent key on the synchronous
backend, and a partial (uncommitted) read on the synchronous backend. -/
theorem claim_read_uncommitted_amended_witness :
    MemoryFileDelegate.read_generator (⟨[("k", [1])], []⟩ : MemState) "k" none none = [] ∧
    SynchronousFileDelegate.read_generator (⟨[], [], []⟩ : SyncState) "k" none none = [] ∧
    SynchronousFileDelegate.read_all
      (SynchronousFileDelegate.start_write "r"
        { files := [("r/k", [5, 6])], streams := [], paths := [] } "k") "k" = [] :=
  ⟨claim_read_uncommitted_amended.1 ⟨[("k", [1])], []⟩ "k" none none (by decide),
   claim_read_uncommitted_amended.2.1 ⟨[], [], []⟩ "k" none none (by decide),
   claim_read_uncommitted_amended.2.2 { files := [("r/k", [5, 6])], streams := [], paths := [] }
     "r" "k" [] _ (by decide)⟩

/-- C9 (code bug): `FileUploadHandler.put` on a successful new upload
(`PUT /x`, body `"asdfasdf"`, `Content-Type: text/plain`) answers with
status 200, not the claimed 201, and sets no `ETag` or `Last-Modified`
response header; and because `FileInfo.__init__` discards the `etag`
argument, the stored metadata's `etag` property is `None`, so a
subsequent GET carrying `If-None-Match` with the upload's hash runs
`check_if_304` on `etag = None` / `last_modified = None` and gets
`False` — a 200 response, never the claimed 304. -/
theorem claim_put_upload_bug :
    (fileUploadPut managerEmptyUnbounded "/x" "ik1" "sha1-of-asdfasdf" 8
      "text/plain" 100).status = 200 ∧
    (fileUploadPut managerEmptyUnbounded "/x" "ik1" "sha1-of-asdfasdf" 8
      "text/plain" 100).status ≠ 201 ∧
    (fileUploadPut managerEmptyUnbounded "/x" "ik1" "sha1-of-asdfasdf" 8
      "text/plain" 100).headers = [] ∧
    (fileUploadPut managerEmptyUnbounded "/x" "ik1" "sha1-of-asdfasdf" 8
      "text/plain" 100).storedInfo.etagProp = none ∧
    check_if_304
      (fileUploadPut managerEmptyUnbounded "/x" "ik1" "sha1-of-asdfasdf" 8
        "text/plain" 100).storedInfo.etagProp
      (fileUploadPut managerEmptyUnbounded "/x" "ik1" "sha1-of-asdfasdf" 8
        "text/plain" 100).storedInfo.lastModifiedProp
      [("If-None-Match", "\"sha1-of-asdfasdf\"")] = Except.ok false := by
  refine ⟨rfl, by decide, rfl, rfl, rfl⟩

/-- C10: whatever `etag` and `last_modified` values are passed to the
`FileInfo` constructor, the `etag` property afterwards reads the
constructor-stored `None` and the `last_modified` property returns
`None` (its body is only a docstring), so neither supplied value is
observable. -/
theorem claim_fileinfo_discards_etag_and_last_modified
    (key internalKey : String) (lastModified : Option Int) (etag : Option String)
    (size : Option Nat) (contentType : String) (now : Int) :
    (fileInfoNew key internalKey lastModified etag size contentType now).etagProp
        = none ∧
    (fileInfoNew key internalKey lastModified etag size contentType now).lastModifiedProp
        = none :=
  ⟨rfl, rfl⟩

/-- Sanity check pinning the spec-modelled parser to the repository's
own test expectations: on the test payload with boundary
`b'--boundarything'` it produces parts `a.txt` with body `b'a'` and
`b.csv` with body `b'col1,col2\na,b\n--boundarythin,thatwasclose\n'`,
both finished. -/
theorem multipart_model_matches_repository_test :
    (dataReceived (mkParser (strBytes "--boundarything")) multipartTestPayload).core.parts.map
      (fun p => (p.name, p.data, p.finished)) =
    [(strBytes "a.txt", strBytes "a", true),
     (strBytes "b.csv", strBytes "col1,col2\na,b\n--boundarythin,thatwasclose\n", true)] := by
  set_option maxRecDepth 10000 in decide

end Torncoder